import Mathlib

/-!
Verification of the `single-event` TypeScript library (`src/SingleEvent.ts`).

A shallow embedding of the event-propagation core of the library, together
with proofs about the specification's claims.

The library implements `SuperEvent` (abstract base holding a listener set,
a child-node set, connect/disconnect hooks and a sender), with variants
`SingleEventSource`, `FilterEvent` and `MapEvent`, plus the async bridge
`next()` / `take(count)`.

Three embeddings are used:

* a *dynamic* model (`SingleEvent.Dyn`) of one node's mutable state and the
  `listen` / `unlisten` / `addChild` / `removeChild` operations, mirroring
  the bookkeeping in `SuperEvent` line by line (a JS `Set` is an
  insertion-ordered duplicate-free list); used for the lifecycle-hook
  claims;
* a *static* model (`SingleEvent.Tree`) of a fixed propagation tree and the
  synchronous trace of one firing (`_trigger` / `_notifyListeners`); used
  for the delivery-order, filter, map and sender claims;
* an *async-bridge* model (`SingleEvent.Async`) of the one-shot listener
  created by `next()` and of the sequential-await loop of `take(count)`.
-/

namespace SingleEvent

namespace Dyn

/-- JS `Set.add`: appends `x` unless already present (insertion order kept). -/
def setAdd {α : Type} [DecidableEq α] (xs : List α) (x : α) : List α :=
  if x ∈ xs then xs else xs ++ [x]

/-- JS `Set.delete`: removes `x` (present at most once in a `Set`). -/
def setDel {α : Type} [DecidableEq α] (xs : List α) (x : α) : List α :=
  xs.filter (fun y => y ≠ x)

/-- State of one `SuperEvent` node: its `_listeners` and `_children` sets
(children abstracted to identities), plus counters of how many times its
`_connect` and `_disconnect` hooks have been invoked. -/
structure EvSt (L : Type) where
  listeners : List L
  children : List Nat
  connects : Nat
  disconnects : Nat
  deriving Repr, DecidableEq

/-- A freshly constructed node: empty sets, hooks never invoked. -/
def EvSt.init {L : Type} : EvSt L := ⟨[], [], 0, 0⟩

/-- The emptiness check `this._listeners.size === 0 &&
this._children.size === 0` used by all four mutation operations. -/
def EvSt.isEmptyNode {L : Type} (st : EvSt L) : Bool :=
  st.listeners.isEmpty && st.children.isEmpty

/-- Embeds `SuperEvent.listen` (src lines 170-175): if the node has no
listeners and no children, invoke `_connect`; then add the listener to the
set. -/
def listen {L : Type} [DecidableEq L] (st : EvSt L) (l : L) : EvSt L :=
  let st1 := if st.isEmptyNode then { st with connects := st.connects + 1 } else st
  { st1 with listeners := setAdd st1.listeners l }

/-- Embeds `SuperEvent.unlisten` (src lines 177-185): delete the listener
from the set, recursively unlisten on every child (children are opaque
identities here, so that recursion touches only the children's own state),
then invoke `_disconnect` if the node now has no listeners and no children.
Note the code checks emptiness, not that a removal happened. -/
def unlisten {L : Type} [DecidableEq L] (st : EvSt L) (l : L) : EvSt L :=
  let st1 := { st with listeners := setDel st.listeners l }
  if st1.isEmptyNode then { st1 with disconnects := st1.disconnects + 1 } else st1

/-- Embeds `SuperEvent.addChild` (src lines 187-192): mirror of `listen` on
the child set. -/
def addChild {L : Type} [DecidableEq L] (st : EvSt L) (c : Nat) : EvSt L :=
  let st1 := if st.isEmptyNode then { st with connects := st.connects + 1 } else st
  { st1 with children := setAdd st1.children c }

/-- Embeds `SuperEvent.removeChild` (src lines 194-199): mirror of
`unlisten` on the child set (no recursion). -/
def removeChild {L : Type} [DecidableEq L] (st : EvSt L) (c : Nat) : EvSt L :=
  let st1 := { st with children := setDel st.children c }
  if st1.isEmptyNode then { st1 with disconnects := st1.disconnects + 1 } else st1

/-- One operation of the public/internal mutation interface of a node. -/
inductive Op (L : Type) where
  | listen (l : L)
  | unlisten (l : L)
  | addChild (c : Nat)
  | removeChild (c : Nat)
  deriving Repr, DecidableEq

/-- Apply one operation. -/
def step {L : Type} [DecidableEq L] (st : EvSt L) : Op L → EvSt L
  | .listen l => listen st l
  | .unlisten l => unlisten st l
  | .addChild c => addChild st c
  | .removeChild c => removeChild st c

/-- Run a sequence of operations from a state. -/
def run {L : Type} [DecidableEq L] (st : EvSt L) (ops : List (Op L)) : EvSt L :=
  ops.foldl step st

/-- Number of transitions of the observer count (listeners plus children)
from zero to non-zero along a run. -/
def upTransitions {L : Type} [DecidableEq L] (st : EvSt L) : List (Op L) → Nat
  | [] => 0
  | op :: ops =>
      let st' := step st op
      (if st.isEmptyNode ∧ ¬st'.isEmptyNode then 1 else 0) + upTransitions st' ops

/-- Number of transitions of the observer count from non-zero back to zero
along a run. -/
def downTransitions {L : Type} [DecidableEq L] (st : EvSt L) : List (Op L) → Nat
  | [] => 0
  | op :: ops =>
      let st' := step st op
      (if ¬st.isEmptyNode ∧ st'.isEmptyNode then 1 else 0) + downTransitions st' ops

/-- Combined state of a parent node and one derived (`FilterEvent` /
`MapEvent`) child node known to the parent under identity `cid`.  The
derived node's `_connect` / `_disconnect` hooks are the closures built in
`SuperEvent.filter` / `SuperEvent.map` (src lines 212-232):
`() => this.addChild(node)` and `() => this.removeChild(node)`. -/
structure PCSt (L : Type) where
  parent : EvSt L
  child : EvSt L
  deriving Repr, DecidableEq

/-- Embeds `SuperEvent.filter(pred)` / `SuperEvent.map(transform)` (src
lines 212-232): construct the derived node with empty listener and child
sets and return it; the parent's state is not touched by the construction
itself. -/
def construct {L : Type} (p : EvSt L) : PCSt L := ⟨p, EvSt.init⟩

/-- Embeds `child.listen(listener)` where the child's `_connect` hook is
the closure `() => parent.addChild(child)`: if the child has no listeners
and no children, its hook runs, i.e. the parent's `addChild` is invoked
with the child; then the listener is added to the child's set.  The child's
`connects` counter counts invocations of that hook. -/
def childListen {L : Type} [DecidableEq L] (cid : Nat) (st : PCSt L) (l : L) : PCSt L :=
  if st.child.isEmptyNode then
    ⟨addChild st.parent cid,
      { st.child with
          connects := st.child.connects + 1,
          listeners := setAdd st.child.listeners l }⟩
  else
    ⟨st.parent, { st.child with listeners := setAdd st.child.listeners l }⟩

end Dyn

namespace Tree

/-- The variant-specific `_trigger` behavior of a node:
`SingleEventSource`, `FilterEvent pred`, or `MapEvent transform`
(value types collapsed to a single type `V`). -/
inductive NodeKind (V : Type) where
  | source
  | filter (pred : V → Bool)
  | map (transform : V → V)

/-- A snapshot of one `SuperEvent` node and (recursively) of the derived
nodes currently registered in its `_children` set.  `id` stands for the
object identity of the node, `sender` for `_sender`, `listeners` for the
insertion-ordered `_listeners` set, `children` for the insertion-ordered
`_children` set. -/
inductive Node (V S L : Type) where
  | mk (id : Nat) (kind : NodeKind V) (sender : S) (listeners : List L)
      (children : List (Node V S L))

def Node.id {V S L : Type} : Node V S L → Nat
  | .mk i _ _ _ _ => i

def Node.kind {V S L : Type} : Node V S L → NodeKind V
  | .mk _ k _ _ _ => k

def Node.sender {V S L : Type} : Node V S L → S
  | .mk _ _ s _ _ => s

def Node.listeners {V S L : Type} : Node V S L → List L
  | .mk _ _ _ ls _ => ls

def Node.children {V S L : Type} : Node V S L → List (Node V S L)
  | .mk _ _ _ _ cs => cs

/-- Embeds `SuperEvent.filter(pred)` (src lines 212-221): the constructed
`FilterEvent` receives `this._sender` and starts with empty sets. -/
def Node.filterChild {V S L : Type} (t : Node V S L) (i : Nat) (p : V → Bool) :
    Node V S L :=
  .mk i (.filter p) t.sender [] []

/-- Embeds `SuperEvent.map(transform)` (src lines 223-232): the constructed
`MapEvent` receives `this._sender` and starts with empty sets. -/
def Node.mapChild {V S L : Type} (t : Node V S L) (i : Nat) (f : V → V) :
    Node V S L :=
  .mk i (.map f) t.sender [] []

/-- Observable events of one synchronous firing pass: a listener invoked
with `(value, sender)`, or a filter node's predicate evaluated on a value. -/
inductive Ev (V S L : Type) where
  | invoke (l : L) (v : V) (s : S)
  | predEval (id : Nat) (v : V)
  deriving DecidableEq

mutual

/-- Trace of `node._trigger(v)` (src lines 244-245, 263-267, 278-279):
a source notifies directly; a filter evaluates its predicate once and
notifies only on acceptance; a map notifies with the transformed value. -/
def triggerTrace {V S L : Type} : Node V S L → V → List (Ev V S L)
  | .mk _ .source s ls cs, v =>
      ls.map (fun l => Ev.invoke l v s) ++ triggerChildren cs v
  | .mk i (.filter p) s ls cs, v =>
      Ev.predEval i v ::
        (if p v then ls.map (fun l => Ev.invoke l v s) ++ triggerChildren cs v
         else [])
  | .mk _ (.map f) s ls cs, v =>
      ls.map (fun l => Ev.invoke l (f v) s) ++ triggerChildren cs (f v)

/-- Trace of the child loop of `_notifyListeners` (src lines 163-165):
each child's `_trigger` runs to completion before the next sibling. -/
def triggerChildren {V S L : Type} : List (Node V S L) → V → List (Ev V S L)
  | [], _ => []
  | c :: cs, v => triggerTrace c v ++ triggerChildren cs v

end

/-- Trace of `node._notifyListeners(v)` (src lines 159-166): every
registered listener is invoked with `(v, _sender)` in insertion order,
then every child is triggered with `v`. -/
def notifyTrace {V S L : Type} (t : Node V S L) (v : V) : List (Ev V S L) :=
  t.listeners.map (fun l => Ev.invoke l v t.sender) ++ triggerChildren t.children v

mutual

/-- The node identities occurring in a tree (preorder). -/
def idsOf {V S L : Type} : Node V S L → List Nat
  | .mk i _ _ _ cs => i :: idsOfList cs

/-- The node identities occurring in a forest. -/
def idsOfList {V S L : Type} : List (Node V S L) → List Nat
  | [] => []
  | c :: cs => idsOf c ++ idsOfList cs

end

mutual

/-- Total number of occurrences of listener `l` over all listener sets of a
tree. -/
def listOcc {V S L : Type} [DecidableEq L] : Node V S L → L → Nat
  | .mk _ _ _ ls cs, l => ls.count l + listOccList cs l

/-- Total number of occurrences of listener `l` over a forest. -/
def listOccList {V S L : Type} [DecidableEq L] : List (Node V S L) → L → Nat
  | [], _ => 0
  | c :: cs, l => listOcc c l + listOccList cs l

end

mutual

/-- The senders of all nodes of a tree (preorder). -/
def sendersOf {V S L : Type} : Node V S L → List S
  | .mk _ _ s _ cs => s :: sendersOfList cs

/-- The senders of all nodes of a forest. -/
def sendersOfList {V S L : Type} : List (Node V S L) → List S
  | [] => []
  | c :: cs => sendersOf c ++ sendersOfList cs

end

/-- Recognizer for predicate-evaluation events of the node with identity
`i`. -/
def Ev.isPredEvalOf {V S L : Type} (i : Nat) : Ev V S L → Bool
  | .predEval j _ => j == i
  | _ => false

/-- Number of times the predicate of the node with identity `i` was
evaluated in a trace. -/
def predCount {V S L : Type} (i : Nat) (es : List (Ev V S L)) : Nat :=
  es.countP (Ev.isPredEvalOf i)

end Tree

namespace Async

/-- State of the one-shot listener closure created by `SuperEvent.next`
(src lines 201-210): `registered` says whether the listener is currently in
the node's `_listeners` set (it is added by the `listen` call inside
`next()` and removes itself by `this.unlisten(l)` as soon as it runs);
`resolvedWith` is the promise's resolution cell (a JS promise keeps the
first value it is resolved with); `invocations` counts how many times the
listener body has run. -/
structure NextSt (V : Type) where
  registered : Bool
  resolvedWith : Option V
  invocations : Nat
  deriving Repr, DecidableEq

/-- State right after `next()` returns: the one-shot listener was just
registered by the `listen` call, the promise is pending, the listener has
never run. -/
def NextSt.start {V : Type} : NextSt V := ⟨true, none, 0⟩

/-- Effect of one firing of the node on the `next()` listener: if it is
still registered, its body runs — `ok(a)` resolves the promise (only the
first resolution counts) and `this.unlisten(l)` removes the listener; if it
is no longer registered, the firing does not reach it. -/
def fireNext {V : Type} (st : NextSt V) (v : V) : NextSt V :=
  if st.registered then
    { registered := false,
      resolvedWith := match st.resolvedWith with
        | none => some v
        | some w => some w,
      invocations := st.invocations + 1 }
  else st

/-- State of the `next()` listener after the node fired with each value of
`vs`, in order. -/
def fireAll {V : Type} (st : NextSt V) (vs : List V) : NextSt V :=
  vs.foldl fireNext st

/-- Embeds `SuperEvent.take(count)` (src lines 234-240), run against the
sequence of values the node fires with (one per loop iteration, since each
`next()` is awaited before the following one registers its listener).
Returns `none` when the loop would still be awaiting a further firing,
otherwise the accumulated array together with the number of `next()` calls
(that is, of listener registrations) made.  `i` is the loop counter, `acc`
the accumulated `array`. -/
def takeAux {V : Type} (count : Int) (i : Int) (fires : List V) (acc : List V)
    (regs : Nat) : Option (List V × Nat) :=
  if i < count then
    match fires with
    | [] => none
    | v :: rest => takeAux count (i + 1) rest (acc ++ [v]) (regs + 1)
  else
    some (acc, regs)

/-- Runs `take(count)` from the start of the loop (`i = 0`, empty array). -/
def takeRun {V : Type} (count : Int) (fires : List V) : Option (List V × Nat) :=
  takeAux count 0 fires [] 0

end Async

/-- Predicate used by the concrete witness trees: accept even numbers. -/
def wpredEven : Nat → Bool := fun v => v % 2 == 0

/-- Transform used by the concrete witness trees: add one. -/
def wplus1 : Nat → Nat := fun v => v + 1

/-- Predicate used by the concrete witness trees: accept everything. -/
def wptrue : Nat → Bool := fun _ => true

/-- Witness tree for C4: a source node (identity 0, sender 7) with
listeners `[1, 2, 3]` and one filter child holding listener 4. -/
def w4tree : Tree.Node Nat Nat Nat :=
  .mk 0 .source 7 [1, 2, 3] [.mk 1 (.filter wpredEven) 7 [4] []]

/-- Witness tree for C5: a source node (identity 0, sender 10) with
listener 9 and a filter child (identity 1, predicate `wpredEven`) holding
listener 5. -/
def w5tree : Tree.Node Nat Nat Nat :=
  .mk 0 .source 10 [9] [.mk 1 (.filter wpredEven) 10 [5] []]

/-- Witness tree for C6: a source node (identity 0, sender 10) with
listener 9 and a map child (identity 1, transform `wplus1`) holding
listener 5. -/
def w6tree : Tree.Node Nat Nat Nat :=
  .mk 0 .source 10 [9] [.mk 1 (.map wplus1) 10 [5] []]

/-- Witness tree for C7: a source node (identity 0, sender 10) with
listener 9 and a map child (identity 1, sender 10 as inherited at
construction) holding listener 5. -/
def w7tree : Tree.Node Nat Nat Nat :=
  .mk 0 .source 10 [9] [.mk 1 (.map wplus1) 10 [5] []]

end SingleEvent

/-!
Helper lemmas about the three models.
-/

namespace SingleEvent

namespace Dyn

theorem mem_setAdd_self {α : Type} [DecidableEq α] (xs : List α) (x : α) :
    x ∈ setAdd xs x := by
  unfold setAdd
  split
  · assumption
  · simp

end Dyn

namespace Tree

/-- Induction over a propagation tree: to prove a property of every node it
suffices to prove it for a node assuming it for all its children. -/
theorem Node.inductionOn {V S L : Type} {motive : Node V S L → Prop}
    (h : ∀ i k s ls cs, (∀ c ∈ cs, motive c) → motive (.mk i k s ls cs)) :
    ∀ t, motive t
  | .mk i k s ls cs =>
    h i k s ls cs (fun c hc =>
      have : sizeOf c < sizeOf (Node.mk i k s ls cs) := by
        have := List.sizeOf_lt_of_mem hc
        simp only [Node.mk.sizeOf_spec]
        omega
      Node.inductionOn h c)
termination_by t => sizeOf t

theorem triggerTrace_source {V S L : Type} (i : Nat) (s : S) (ls : List L)
    (cs : List (Node V S L)) (v : V) :
    triggerTrace (.mk i .source s ls cs) v
      = ls.map (fun l => Ev.invoke l v s) ++ triggerChildren cs v := rfl

theorem triggerTrace_filter {V S L : Type} (i : Nat) (p : V → Bool) (s : S)
    (ls : List L) (cs : List (Node V S L)) (v : V) :
    triggerTrace (.mk i (.filter p) s ls cs) v
      = Ev.predEval i v ::
          (if p v then ls.map (fun l => Ev.invoke l v s) ++ triggerChildren cs v
           else []) := rfl

theorem triggerTrace_map {V S L : Type} (i : Nat) (f : V → V) (s : S)
    (ls : List L) (cs : List (Node V S L)) (v : V) :
    triggerTrace (.mk i (.map f) s ls cs) v
      = ls.map (fun l => Ev.invoke l (f v) s) ++ triggerChildren cs (f v) := rfl

theorem triggerChildren_nil {V S L : Type} (v : V) :
    triggerChildren ([] : List (Node V S L)) v = [] := rfl

theorem triggerChildren_cons {V S L : Type} (c : Node V S L)
    (cs : List (Node V S L)) (v : V) :
    triggerChildren (c :: cs) v = triggerTrace c v ++ triggerChildren cs v := rfl

theorem triggerChildren_append {V S L : Type} (as bs : List (Node V S L)) (v : V) :
    triggerChildren (as ++ bs) v = triggerChildren as v ++ triggerChildren bs v := by
  induction as with
  | nil => simp [triggerChildren_nil]
  | cons c cs ih => simp [triggerChildren_cons, ih]

theorem notifyTrace_mk {V S L : Type} (i : Nat) (k : NodeKind V) (s : S)
    (ls : List L) (cs : List (Node V S L)) (v : V) :
    notifyTrace (.mk i k s ls cs) v
      = ls.map (fun l => Ev.invoke l v s) ++ triggerChildren cs v := rfl

theorem idsOf_mk {V S L : Type} (i : Nat) (k : NodeKind V) (s : S) (ls : List L)
    (cs : List (Node V S L)) :
    idsOf (Node.mk i k s ls cs) = i :: idsOfList cs := rfl

theorem idsOfList_nil {V S L : Type} :
    idsOfList ([] : List (Node V S L)) = [] := rfl

theorem idsOfList_cons {V S L : Type} (c : Node V S L) (cs : List (Node V S L)) :
    idsOfList (c :: cs) = idsOf c ++ idsOfList cs := rfl

theorem idsOfList_append {V S L : Type} (as bs : List (Node V S L)) :
    idsOfList (as ++ bs) = idsOfList as ++ idsOfList bs := by
  induction as with
  | nil => simp [idsOfList_nil, idsOfList_cons]
  | cons c cs ih => simp [idsOfList_cons, ih]

theorem listOcc_mk {V S L : Type} [DecidableEq L] (i : Nat) (k : NodeKind V)
    (s : S) (ls : List L) (cs : List (Node V S L)) (l : L) :
    listOcc (Node.mk i k s ls cs) l = ls.count l + listOccList cs l := rfl

theorem listOccList_nil {V S L : Type} [DecidableEq L] (l : L) :
    listOccList ([] : List (Node V S L)) l = 0 := rfl

theorem listOccList_cons {V S L : Type} [DecidableEq L] (c : Node V S L)
    (cs : List (Node V S L)) (l : L) :
    listOccList (c :: cs) l = listOcc c l + listOccList cs l := rfl

theorem listOccList_append {V S L : Type} [DecidableEq L]
    (as bs : List (Node V S L)) (l : L) :
    listOccList (as ++ bs) l = listOccList as l + listOccList bs l := by
  induction as with
  | nil => simp [listOccList_nil, listOccList_cons]
  | cons c cs ih => simp [listOccList_cons, ih]; omega

theorem sendersOf_mk {V S L : Type} (i : Nat) (k : NodeKind V) (s : S)
    (ls : List L) (cs : List (Node V S L)) :
    sendersOf (Node.mk i k s ls cs) = s :: sendersOfList cs := rfl

theorem sendersOfList_cons {V S L : Type} (c : Node V S L)
    (cs : List (Node V S L)) :
    sendersOfList (c :: cs) = sendersOf c ++ sendersOfList cs := rfl

theorem predCount_nil {V S L : Type} (i : Nat) :
    predCount i ([] : List (Ev V S L)) = 0 := rfl

theorem predCount_append {V S L : Type} (i : Nat) (es fs : List (Ev V S L)) :
    predCount i (es ++ fs) = predCount i es + predCount i fs := by
  simp [predCount, List.countP_append]

theorem predCount_invokes {V S L : Type} (i : Nat) (ls : List L) (v : V) (s : S) :
    predCount i (ls.map fun l => Ev.invoke l v s) = 0 := by
  rw [predCount, List.countP_eq_zero]
  intro e he
  obtain ⟨x, _, rfl⟩ := List.mem_map.mp he
  simp [Ev.isPredEvalOf]

theorem predCount_cons_predEval {V S L : Type} (i j : Nat) (v : V)
    (es : List (Ev V S L)) :
    predCount i (Ev.predEval j v :: es)
      = (if j = i then 1 else 0) + predCount i es := by
  by_cases h : j = i
  · simp [predCount, List.countP_cons, Ev.isPredEvalOf, h]; omega
  · simp [predCount, List.countP_cons, Ev.isPredEvalOf, h]

theorem mem_idsOfList_of_mem {V S L : Type} {c : Node V S L}
    {cs : List (Node V S L)} (hc : c ∈ cs) {j : Nat} (hj : j ∈ idsOf c) :
    j ∈ idsOfList cs := by
  induction cs with
  | nil => cases hc
  | cons d ds ih =>
    rcases List.mem_cons.mp hc with h | h
    · subst h; rw [idsOfList_cons]; exact List.mem_append_left _ hj
    · rw [idsOfList_cons]; exact List.mem_append_right _ (ih h)

theorem predCount_triggerChildren_zero {V S L : Type} (i : Nat) (v : V)
    (cs : List (Node V S L))
    (h : ∀ c ∈ cs, predCount i (triggerTrace c v) = 0) :
    predCount i (triggerChildren cs v) = 0 := by
  induction cs with
  | nil => rfl
  | cons c cs ih =>
    rw [triggerChildren_cons, predCount_append,
        h c (List.mem_cons_self c cs),
        ih (fun d hd => h d (List.mem_cons_of_mem c hd))]

theorem predCount_trigger_zero {V S L : Type} (i : Nat) (t : Node V S L) :
    i ∉ idsOf t → ∀ v, predCount i (triggerTrace t v) = 0 := by
  induction t using Node.inductionOn with
  | h i' k s ls cs ih =>
    intro hmem v
    rw [idsOf_mk, List.mem_cons] at hmem
    push_neg at hmem
    obtain ⟨hne, hni⟩ := hmem
    have hch : ∀ u, predCount i (triggerChildren cs u) = 0 := by
      intro u
      refine predCount_triggerChildren_zero i u cs (fun c hc => ?_)
      exact ih c hc (fun hj => hni (mem_idsOfList_of_mem hc hj)) u
    cases k with
    | source => rw [triggerTrace_source, predCount_append, predCount_invokes, hch]
    | filter p =>
      rw [triggerTrace_filter, predCount_cons_predEval,
          if_neg (fun h => hne h.symm)]
      by_cases hp : p v
      · rw [if_pos hp, predCount_append, predCount_invokes, hch]
      · rw [if_neg hp, predCount_nil]
    | map f => rw [triggerTrace_map, predCount_append, predCount_invokes, hch]

theorem invoke_mem_map {V S L : Type} {ls : List L} {v : V} {s : S} {l : L}
    {w : V} {s' : S}
    (h : Ev.invoke l w s' ∈ ls.map fun x => Ev.invoke x v s) :
    l ∈ ls ∧ w = v ∧ s' = s := by
  obtain ⟨x, hx, he⟩ := List.mem_map.mp h
  cases he
  exact ⟨hx, rfl, rfl⟩

theorem listOcc_zero_of_listOccList {V S L : Type} [DecidableEq L]
    {cs : List (Node V S L)} {l : L} (h : listOccList cs l = 0)
    {c : Node V S L} (hc : c ∈ cs) : listOcc c l = 0 := by
  induction cs with
  | nil => cases hc
  | cons d ds ih =>
    rw [listOccList_cons] at h
    rcases List.mem_cons.mp hc with h' | h'
    · subst h'; omega
    · exact ih (by omega) h'

theorem invoke_notMem_triggerChildren {V S L : Type} {l : L} {w : V} {s : S}
    (cs : List (Node V S L)) (v : V)
    (h : ∀ c ∈ cs, Ev.invoke l w s ∉ triggerTrace c v) :
    Ev.invoke l w s ∉ triggerChildren cs v := by
  induction cs with
  | nil => simp [triggerChildren_nil]
  | cons c cs ih =>
    rw [triggerChildren_cons]
    intro hm
    rcases List.mem_append.mp hm with hm | hm
    · exact h c (List.mem_cons_self c cs) hm
    · exact ih (fun d hd => h d (List.mem_cons_of_mem c hd)) hm

theorem invoke_notMem_trigger {V S L : Type} [DecidableEq L] (l : L)
    (t : Node V S L) :
    listOcc t l = 0 → ∀ v (w : V) (s : S), Ev.invoke l w s ∉ triggerTrace t v := by
  induction t using Node.inductionOn with
  | h i k s0 ls cs ih =>
    intro hz v w s hmem
    rw [listOcc_mk] at hz
    have hls : l ∉ ls := List.count_eq_zero.mp (by omega)
    have hcs : ∀ u, Ev.invoke l w s ∉ triggerChildren cs u := by
      intro u
      refine invoke_notMem_triggerChildren cs u (fun c hc => ?_)
      exact ih c hc (listOcc_zero_of_listOccList (by omega) hc) u w s
    cases k with
    | source =>
      rw [triggerTrace_source] at hmem
      rcases List.mem_append.mp hmem with hm | hm
      · exact hls (invoke_mem_map hm).1
      · exact hcs v hm
    | filter p =>
      rw [triggerTrace_filter] at hmem
      rcases List.mem_cons.mp hmem with hm | hm
      · cases hm
      · by_cases hp : p v
        · rw [if_pos hp] at hm
          rcases List.mem_append.mp hm with hm | hm
          · exact hls (invoke_mem_map hm).1
          · exact hcs v hm
        · rw [if_neg hp] at hm
          cases hm
    | map f =>
      rw [triggerTrace_map] at hmem
      rcases List.mem_append.mp hmem with hm | hm
      · exact hls (invoke_mem_map hm).1
      · exact hcs (f v) hm

theorem invoke_sender_mem_list {V S L : Type} (cs : List (Node V S L))
    (h : ∀ c ∈ cs, ∀ v (l : L) (w : V) (s : S),
      Ev.invoke l w s ∈ triggerTrace c v → s ∈ sendersOf c)
    (v : V) (l : L) (w : V) (s : S)
    (hm : Ev.invoke l w s ∈ triggerChildren cs v) : s ∈ sendersOfList cs := by
  induction cs with
  | nil => cases hm
  | cons c cs ih =>
    rw [triggerChildren_cons] at hm
    rw [sendersOfList_cons]
    rcases List.mem_append.mp hm with hm | hm
    · exact List.mem_append_left _ (h c (List.mem_cons_self c cs) v l w s hm)
    · exact List.mem_append_right _
        (ih (fun d hd => h d (List.mem_cons_of_mem c hd)) hm)

theorem invoke_sender_mem {V S L : Type} (t : Node V S L) :
    ∀ v (l : L) (w : V) (s : S),
      Ev.invoke l w s ∈ triggerTrace t v → s ∈ sendersOf t := by
  induction t using Node.inductionOn with
  | h i k s0 ls cs ih =>
    intro v l w s hmem
    rw [sendersOf_mk]
    cases k with
    | source =>
      rw [triggerTrace_source] at hmem
      rcases List.mem_append.mp hmem with hm | hm
      · exact (invoke_mem_map hm).2.2 ▸ List.mem_cons_self _ _
      · exact List.mem_cons_of_mem _ (invoke_sender_mem_list cs ih v l w s hm)
    | filter p =>
      rw [triggerTrace_filter] at hmem
      rcases List.mem_cons.mp hmem with hm | hm
      · cases hm
      · by_cases hp : p v
        · rw [if_pos hp] at hm
          rcases List.mem_append.mp hm with hm | hm
          · exact (invoke_mem_map hm).2.2 ▸ List.mem_cons_self _ _
          · exact List.mem_cons_of_mem _ (invoke_sender_mem_list cs ih v l w s hm)
        · rw [if_neg hp] at hm
          cases hm
    | map f =>
      rw [triggerTrace_map] at hmem
      rcases List.mem_append.mp hmem with hm | hm
      · exact (invoke_mem_map hm).2.2 ▸ List.mem_cons_self _ _
      · exact List.mem_cons_of_mem _ (invoke_sender_mem_list cs ih (f v) l w s hm)

theorem indexOf_invoke_map {V S L : Type} [DecidableEq V] [DecidableEq S]
    [DecidableEq L] (ls : List L) (v : V) (s : S) (hnd : ls.Nodup) (i : Nat)
    (hi : i < ls.length) :
    (ls.map fun l => Ev.invoke l v s).indexOf (Ev.invoke (ls.get ⟨i, hi⟩) v s)
      = i := by
  induction ls generalizing i with
  | nil => simp at hi
  | cons a as ih =>
    cases i with
    | zero =>
      rw [List.map_cons]
      exact List.indexOf_cons_self _ _
    | succ j =>
      have hj : j < as.length := by simpa using hi
      obtain ⟨hna, hnd2⟩ := List.nodup_cons.mp hnd
      have hget : (a :: as).get ⟨j + 1, hi⟩ = as.get ⟨j, hj⟩ := rfl
      have hne : Ev.invoke a v s ≠ Ev.invoke (as.get ⟨j, hj⟩) v s := by
        intro he
        injection he with h1 _ _
        exact hna (h1.symm ▸ List.get_mem as j hj)
      rw [hget, List.map_cons, List.indexOf_cons_ne _ hne, ih hnd2 j hj]

end Tree

theorem fireAll_unregistered {V : Type} (st : Async.NextSt V)
    (h : st.registered = false) (vs : List V) : Async.fireAll st vs = st := by
  induction vs with
  | nil => rfl
  | cons v vs ih =>
    rw [Async.fireAll, List.foldl_cons]
    have : Async.fireNext st v = st := by rw [Async.fireNext, h]; simp
    rw [this, ← Async.fireAll, ih]

theorem takeAux_eq {V : Type} (n : Nat) :
    ∀ (count i : Int) (fires acc : List V) (regs : Nat),
      count - i = n → n ≤ fires.length →
      Async.takeAux count i fires acc regs
        = some (acc ++ fires.take n, regs + n) := by
  induction n with
  | zero =>
    intro count i fires acc regs hci h
    rw [Async.takeAux.eq_def, if_neg (by omega)]
    simp
  | succ m ih =>
    intro count i fires acc regs hci h
    cases fires with
    | nil => simp at h
    | cons v rest =>
      rw [Async.takeAux.eq_def, if_pos (by omega)]
      have := ih count (i + 1) rest (acc ++ [v]) (regs + 1)
        (by push_cast at hci ⊢; omega) (by simpa using h)
      show Async.takeAux count (i + 1) rest (acc ++ [v]) (regs + 1)
        = some (acc ++ List.take (m + 1) (v :: rest), regs + (m + 1))
      rw [this]
      simp [List.take_succ_cons, List.append_assoc]
      omega

end SingleEvent

/-!
Claims C1-C3: lifecycle hooks.
-/

namespace SingleEvent

/-- C1 (code bug).  The claim states that the disconnect hook fires
exactly once per transition of the observer count from non-zero to zero and
at no other point.  The code (`SuperEvent.unlisten`, src lines 177-185)
invokes `_disconnect` whenever the node ends up with no listeners and no
children, without checking that anything was removed: running the single
operation `unlisten 0` on a freshly created node invokes the disconnect
hook once although no non-zero-to-zero transition (indeed no transition at
all) has occurred. -/
theorem c1_disconnect_without_transition :
    (Dyn.run Dyn.EvSt.init [Dyn.Op.unlisten 0]).disconnects = 1 ∧
    Dyn.downTransitions (Dyn.EvSt.init (L := Nat)) [Dyn.Op.unlisten 0] = 0 ∧
    Dyn.upTransitions (Dyn.EvSt.init (L := Nat)) [Dyn.Op.unlisten 0] = 0 ∧
    (Dyn.run Dyn.EvSt.init [Dyn.Op.unlisten 0]).connects = 0 := by
  decide

/-- C2 (code bug).  The claim states that `unlisten` with a listener that
was never registered is a silent no-op with no hook invocation.  On a node
with no listeners and no children, `unlisten 5` indeed leaves both sets
unchanged, but the final emptiness check of `SuperEvent.unlisten` (src
lines 182-184) still invokes the disconnect hook. -/
theorem c2_unlisten_absent_invokes_disconnect :
    (Dyn.unlisten (Dyn.EvSt.init (L := Nat)) 5).listeners = [] ∧
    (Dyn.unlisten (Dyn.EvSt.init (L := Nat)) 5).children = [] ∧
    (Dyn.unlisten (Dyn.EvSt.init (L := Nat)) 5).connects = 0 ∧
    (Dyn.unlisten (Dyn.EvSt.init (L := Nat)) 5).disconnects = 1 := by
  decide

/-- C3 (counterexample).  The claim states that `filter(pred)` /
`map(transform)` self-register the new node as a child of the parent at
construction time, triggering the parent's connect hook if the parent was
unobserved.  In the code the construction only builds the closures: on a
fresh parent, after construction the parent's child set is still empty and
its connect hook has not been invoked. -/
theorem c3_construction_does_not_register :
    (Dyn.construct (Dyn.EvSt.init (L := Nat))).parent.children = [] ∧
    (Dyn.construct (Dyn.EvSt.init (L := Nat))).parent.connects = 0 := by
  decide

/-- C3 (amended).  Constructing a Filter or Map node does not register it
with its parent; instead the new node's connect hook is the closure
`() => parent.addChild(node)`, so the registration happens when the new
node first gains a listener: after `child.listen l` the child is in the
parent's child set, and the parent's connect hook has been invoked by that
`addChild` call exactly when the parent previously had zero listeners and
zero children. -/
theorem c3_registration_at_first_listen {L : Type} [DecidableEq L]
    (P : Dyn.EvSt L) (cid : Nat) (l : L) :
    (Dyn.childListen cid (Dyn.construct P) l).parent.children =
      Dyn.setAdd P.children cid ∧
    cid ∈ (Dyn.childListen cid (Dyn.construct P) l).parent.children ∧
    (Dyn.childListen cid (Dyn.construct P) l).parent.connects =
      P.connects + (if P.isEmptyNode then 1 else 0) ∧
    (Dyn.childListen cid (Dyn.construct P) l).parent.listeners = P.listeners := by
  unfold Dyn.childListen Dyn.construct Dyn.addChild Dyn.EvSt.init
  by_cases h : P.listeners = [] ∧ P.children = []
  all_goals simp [Dyn.EvSt.isEmptyNode, List.isEmpty_iff, h, Dyn.mem_setAdd_self]

end SingleEvent

/-!
Claims C4-C7: delivery order, filter, map and sender propagation.
-/

namespace SingleEvent

namespace Tree

/-- C4.  For a node with listeners `L1..LN` (in insertion order), one
notification pass first invokes `L1, ..., LN` in order with
`(value, sender)` — the k-th event of the trace is the invocation of the
k-th listener, and the invocation of listener `Li` sits at index `i` of the
trace — and only after all of them does the trace continue with the
children's subtree traces, each child's whole subtree before the next
sibling (`triggerChildren` concatenates the complete recursive trace of
each child in order). -/
theorem c4_delivery_order {V S L : Type} [DecidableEq V] [DecidableEq S]
    [DecidableEq L] (t : Node V S L) (v : V) (i : Nat)
    (hnd : t.listeners.Nodup) (hi : i < t.listeners.length) :
    (notifyTrace t v).take t.listeners.length
      = t.listeners.map (fun l => Ev.invoke l v t.sender) ∧
    (notifyTrace t v).drop t.listeners.length = triggerChildren t.children v ∧
    (notifyTrace t v).indexOf
        (Ev.invoke (t.listeners.get ⟨i, hi⟩) v t.sender) = i := by
  cases t with
  | mk i0 k0 s0 ls0 cs0 =>
    simp only [Node.listeners, Node.sender, Node.children] at *
    refine ⟨?_, ?_, ?_⟩
    · rw [notifyTrace_mk, ← List.length_map ls0 (fun l => Ev.invoke l v s0),
        List.take_left]
    · rw [notifyTrace_mk, ← List.length_map ls0 (fun l => Ev.invoke l v s0),
        List.drop_left]
    · rw [notifyTrace_mk,
        List.indexOf_append_of_mem
          (List.mem_map_of_mem (fun l => Ev.invoke l v s0) (List.get_mem ls0 i hi)),
        indexOf_invoke_map ls0 v s0 hnd i hi]

/-- C5.  For a filter node (identity `i`, predicate `p`) registered as a
child of a parent node `t` (node identities distinct, listener `l`
registered on the filter node and nowhere else), one notification pass of
the parent with value `v` evaluates `p` exactly once, and invokes the
filter node's listener with `(v, sender)` if and only if `p v` is true. -/
theorem c5_filter_correctness {V S L : Type} [DecidableEq L]
    (t : Node V S L) (i : Nat) (p : V → Bool) (s' : S) (fls : List L)
    (fcs : List (Node V S L)) (v : V) (l : L)
    (hmem : Node.mk i (.filter p) s' fls fcs ∈ t.children)
    (hids : (idsOf t).Nodup)
    (hl : l ∈ fls)
    (hocc : listOcc t l = fls.count l) :
    predCount i (notifyTrace t v) = 1 ∧
    (Ev.invoke l v s' ∈ notifyTrace t v ↔ p v = true) := by
  cases t with
  | mk i0 k0 s0 ls0 cs0 =>
    simp only [Node.children] at hmem
    rw [listOcc_mk] at hocc
    rw [idsOf_mk] at hids
    obtain ⟨as, bs, rfl⟩ := List.append_of_mem hmem
    have hnd2 : (idsOfList (as ++ Node.mk i (.filter p) s' fls fcs :: bs)).Nodup :=
      (List.nodup_cons.mp hids).2
    rw [idsOfList_append, idsOfList_cons, idsOf_mk] at hnd2
    obtain ⟨hndas, hndrest, hdisj⟩ := List.nodup_append.mp hnd2
    have hias : i ∉ idsOfList as := fun hi' =>
      hdisj hi' (List.mem_append_left _ (List.mem_cons_self i _))
    obtain ⟨hndcons, hndbs, hdisj2⟩ := List.nodup_append.mp hndrest
    have hifcs : i ∉ idsOfList fcs := (List.nodup_cons.mp hndcons).1
    have hibs : i ∉ idsOfList bs :=
      fun hi' => hdisj2 (List.mem_cons_self i _) hi'
    rw [listOccList_append, listOccList_cons, listOcc_mk] at hocc
    have hls0 : ls0.count l = 0 := by omega
    have has0 : listOccList as l = 0 := by omega
    have hbs0 : listOccList bs l = 0 := by omega
    have hfcs0 : listOccList fcs l = 0 := by omega
    constructor
    · rw [notifyTrace_mk, predCount_append, predCount_invokes,
        triggerChildren_append, triggerChildren_cons, predCount_append,
        predCount_append]
      have has : predCount i (triggerChildren as v) = 0 :=
        predCount_triggerChildren_zero i v as (fun c hc =>
          predCount_trigger_zero i c
            (fun hj => hias (mem_idsOfList_of_mem hc hj)) v)
      have hbs : predCount i (triggerChildren bs v) = 0 :=
        predCount_triggerChildren_zero i v bs (fun c hc =>
          predCount_trigger_zero i c
            (fun hj => hibs (mem_idsOfList_of_mem hc hj)) v)
      have hF : predCount i
          (triggerTrace (Node.mk i (.filter p) s' fls fcs) v) = 1 := by
        rw [triggerTrace_filter, predCount_cons_predEval, if_pos rfl]
        by_cases hp : p v
        · rw [if_pos hp, predCount_append, predCount_invokes,
            predCount_triggerChildren_zero i v fcs (fun c hc =>
              predCount_trigger_zero i c
                (fun hj => hifcs (mem_idsOfList_of_mem hc hj)) v)]
        · rw [if_neg hp, predCount_nil]
      omega
    · constructor
      · intro hm
        by_contra hp
        rw [notifyTrace_mk] at hm
        rcases List.mem_append.mp hm with hm | hm
        · exact (List.count_eq_zero.mp hls0) (invoke_mem_map hm).1
        · rw [triggerChildren_append, triggerChildren_cons] at hm
          rcases List.mem_append.mp hm with hm | hm
          · exact invoke_notMem_triggerChildren as v (fun c hc =>
              invoke_notMem_trigger l c
                (listOcc_zero_of_listOccList has0 hc) v v s') hm
          rcases List.mem_append.mp hm with hm | hm
          · rw [triggerTrace_filter, if_neg hp] at hm
            rcases List.mem_cons.mp hm with hm | hm
            · cases hm
            · cases hm
          · exact invoke_notMem_triggerChildren bs v (fun c hc =>
              invoke_notMem_trigger l c
                (listOcc_zero_of_listOccList hbs0 hc) v v s') hm
      · intro hp
        rw [notifyTrace_mk]
        refine List.mem_append_right _ ?_
        rw [triggerChildren_append, triggerChildren_cons]
        refine List.mem_append_right _ (List.mem_append_left _ ?_)
        rw [triggerTrace_filter, if_pos hp]
        exact List.mem_cons_of_mem _ (List.mem_append_left _
          (List.mem_map_of_mem (fun x => Ev.invoke x v s') hl))

/-- C6.  For a map node (identity `i`, transform `f`) registered as a child
of a parent node `t` (listener `l` registered on the map node and nowhere
else), one notification pass of the parent with value `v` invokes the map
node's listener with exactly `(f v, sender)`: that invocation occurs, and
every invocation of `l` in the pass carries value `f v` and the map node's
sender. -/
theorem c6_map_correctness {V S L : Type} [DecidableEq L]
    (t : Node V S L) (i : Nat) (f : V → V) (s' : S) (mls : List L)
    (mcs : List (Node V S L)) (v : V) (l : L)
    (hmem : Node.mk i (.map f) s' mls mcs ∈ t.children)
    (hl : l ∈ mls)
    (hocc : listOcc t l = mls.count l) :
    Ev.invoke l (f v) s' ∈ notifyTrace t v ∧
    ∀ (w : V) (s : S), Ev.invoke l w s ∈ notifyTrace t v → w = f v ∧ s = s' := by
  cases t with
  | mk i0 k0 s0 ls0 cs0 =>
    simp only [Node.children] at hmem
    rw [listOcc_mk] at hocc
    obtain ⟨as, bs, rfl⟩ := List.append_of_mem hmem
    rw [listOccList_append, listOccList_cons, listOcc_mk] at hocc
    have hcl : 0 < mls.count l := List.count_pos_iff.mpr hl
    have hls0 : ls0.count l = 0 := by omega
    have has0 : listOccList as l = 0 := by omega
    have hbs0 : listOccList bs l = 0 := by omega
    have hmcs0 : listOccList mcs l = 0 := by omega
    constructor
    · rw [notifyTrace_mk]
      refine List.mem_append_right _ ?_
      rw [triggerChildren_append, triggerChildren_cons]
      refine List.mem_append_right _ (List.mem_append_left _ ?_)
      rw [triggerTrace_map]
      exact List.mem_append_left _
        (List.mem_map_of_mem (fun x => Ev.invoke x (f v) s') hl)
    · intro w s hm
      rw [notifyTrace_mk] at hm
      rcases List.mem_append.mp hm with hm | hm
      · exact absurd (invoke_mem_map hm).1 (List.count_eq_zero.mp hls0)
      · rw [triggerChildren_append, triggerChildren_cons] at hm
        rcases List.mem_append.mp hm with hm | hm
        · exact absurd hm (invoke_notMem_triggerChildren as v (fun c hc =>
            invoke_notMem_trigger l c
              (listOcc_zero_of_listOccList has0 hc) v w s))
        rcases List.mem_append.mp hm with hm | hm
        · rw [triggerTrace_map] at hm
          rcases List.mem_append.mp hm with hm | hm
          · exact ⟨(invoke_mem_map hm).2.1, (invoke_mem_map hm).2.2⟩
          · exact absurd hm (invoke_notMem_triggerChildren mcs (f v) (fun c hc =>
              invoke_notMem_trigger l c
                (listOcc_zero_of_listOccList hmcs0 hc) (f v) w s))
        · exact absurd hm (invoke_notMem_triggerChildren bs v (fun c hc =>
            invoke_notMem_trigger l c
              (listOcc_zero_of_listOccList hbs0 hc) v w s))

/-- C7.  Derived nodes inherit their parent's sender at construction
(`filterChild` / `mapChild` copy `t.sender`), and in a tree whose nodes all
carry the root's sender `s0` — which construction by `filter` / `map`
maintains — every listener invocation anywhere in a firing pass receives
`s0` as its sender argument. -/
theorem c7_sender_propagation {V S L : Type}
    (t : Node V S L) (i : Nat) (p : V → Bool) (f : V → V) (s0 : S) (v : V)
    (l : L) (w : V) (s : S)
    (hall : ∀ x ∈ sendersOf t, x = s0)
    (hev : Ev.invoke l w s ∈ triggerTrace t v) :
    (Node.filterChild t i p).sender = t.sender ∧
    (Node.mapChild t i f).sender = t.sender ∧
    s = s0 :=
  ⟨rfl, rfl, hall s (invoke_sender_mem t v l w s hev)⟩

end Tree

/-- Witness for C4 on the concrete tree `w4tree` fired with 4: listeners
1, 2, 3 are invoked first, in order (listener 2 at index 1), then the
filter child's subtree. -/
theorem c4_delivery_order_witness :
    (Tree.notifyTrace w4tree 4).take 3
      = [Tree.Ev.invoke 1 4 7, Tree.Ev.invoke 2 4 7, Tree.Ev.invoke 3 4 7] ∧
    (Tree.notifyTrace w4tree 4).drop 3
      = Tree.triggerChildren w4tree.children 4 ∧
    (Tree.notifyTrace w4tree 4).indexOf (Tree.Ev.invoke 2 4 (7 : Nat)) = 1 := by
  have h := Tree.c4_delivery_order w4tree 4 1 (by decide) (by decide)
  exact ⟨h.1, h.2.1, h.2.2⟩

/-- Witness for C5 on the concrete tree `w5tree` fired with 4: the
predicate of filter node 1 is evaluated once, and listener 5 is invoked
with `(4, 10)` iff `wpredEven 4` holds. -/
theorem c5_filter_correctness_witness :
    Tree.predCount 1 (Tree.notifyTrace w5tree 4) = 1 ∧
    (Tree.Ev.invoke 5 4 (10 : Nat) ∈ Tree.notifyTrace w5tree 4 ↔
      wpredEven 4 = true) :=
  Tree.c5_filter_correctness w5tree 1 wpredEven 10 [5] [] 4 5
    (by simp [w5tree, Tree.Node.children]) (by decide) (by decide) (by decide)

/-- Witness for C6 on the concrete tree `w6tree` fired with 4: listener 5
of the map child is invoked with `(wplus1 4, 10)`, and the invocation of
listener 5 with value 5 and sender 10 indeed carries `wplus1 4` and the map
node's sender. -/
theorem c6_map_correctness_witness :
    Tree.Ev.invoke 5 (wplus1 4) (10 : Nat) ∈ Tree.notifyTrace w6tree 4 ∧
    ((5 : Nat) = wplus1 4 ∧ (10 : Nat) = 10) :=
  ⟨(Tree.c6_map_correctness w6tree 1 wplus1 10 [5] [] 4 5
      (by simp [w6tree, Tree.Node.children]) (by decide) (by decide)).1,
   (Tree.c6_map_correctness w6tree 1 wplus1 10 [5] [] 4 5
      (by simp [w6tree, Tree.Node.children]) (by decide) (by decide)).2
     5 10 (by decide)⟩

/-- Witness for C7 on the concrete tree `w7tree` fired with 4: derived
nodes constructed from it copy its sender, and the invocation of listener 5
with value 5 and sender 10 carries the root sender 10. -/
theorem c7_sender_propagation_witness :
    (Tree.Node.filterChild w7tree 3 wptrue).sender = w7tree.sender ∧
    (Tree.Node.mapChild w7tree 3 wplus1).sender = w7tree.sender ∧
    (10 : Nat) = 10 :=
  Tree.c7_sender_propagation w7tree 3 wptrue wplus1 10 4 5 5 10
    (by decide) (by decide)

end SingleEvent

/-!
Claims C8-C10: the async bridge.
-/

namespace SingleEvent

/-- C8.  The one-shot listener registered by `next()` resolves the promise
with the first value the node fires with after registration, runs exactly
once no matter how many further firings follow, and is no longer registered
afterwards. -/
theorem c8_next_single_fulfillment {V : Type} (v : V) (vs : List V) :
    (Async.fireAll Async.NextSt.start (v :: vs)).resolvedWith = some v ∧
    (Async.fireAll Async.NextSt.start (v :: vs)).invocations = 1 ∧
    (Async.fireAll Async.NextSt.start (v :: vs)).registered = false := by
  have h1 : Async.fireNext (Async.NextSt.start : Async.NextSt V) v
      = ⟨false, some v, 1⟩ := rfl
  rw [Async.fireAll, List.foldl_cons, h1, ← Async.fireAll,
    fireAll_unregistered _ rfl]
  exact ⟨rfl, rfl, rfl⟩

/-- C9.  `take(n)` performs exactly `n` sequential `next()` registrations
and resolves with the first `n` fired values in order; `take(0)` resolves
immediately to the empty sequence with zero registrations (hence no hook
invocation). -/
theorem c9_take_ordering {V : Type} (n : Nat) (fires : List V)
    (h : n ≤ fires.length) :
    Async.takeRun (n : Int) fires = some (fires.take n, n) ∧
    Async.takeRun 0 fires = some ([], 0) := by
  constructor
  · have := takeAux_eq n (n : Int) 0 fires [] 0 (by omega) h
    simpa [Async.takeRun] using this
  · have := takeAux_eq 0 0 0 fires [] 0 (by omega) (by omega)
    simpa [Async.takeRun] using this

/-- Witness for C9: `take(3)` over firings 10, 20, 30 resolves to
`[10, 20, 30]` with three registrations, and `take(0)` resolves to `[]`
with zero registrations. -/
theorem c9_take_ordering_witness :
    Async.takeRun (3 : Int) [10, 20, 30] = some ([10, 20, 30], 3) ∧
    Async.takeRun 0 ([10, 20, 30] : List Nat) = some ([], 0) := by
  have h := c9_take_ordering 3 [10, 20, 30] (by decide)
  exact ⟨h.1, h.2⟩

/-- C10.  For a negative count the loop guard `i < count` of
`SuperEvent.take` is false at once, so `take(count)` resolves immediately
to the empty sequence with zero listener registrations — exactly the
behavior of `take(0)` — and no error is raised (the model is total). -/
theorem c10_take_negative {V : Type} (count : Int) (fires : List V)
    (h : count < 0) :
    Async.takeRun count fires = some ([], 0) ∧
    Async.takeRun count fires = Async.takeRun 0 fires := by
  have h1 : Async.takeRun count fires = some ([], 0) := by
    rw [Async.takeRun, Async.takeAux.eq_def, if_neg (by omega)]
  have h2 : Async.takeRun (0 : Int) fires = some ([], 0) := by
    rw [Async.takeRun, Async.takeAux.eq_def, if_neg (by omega)]
  exact ⟨h1, h1.trans h2.symm⟩

/-- Witness for C10: `take(-1)` over a firing sequence resolves immediately
to `[]` with zero registrations, like `take(0)`. -/
theorem c10_take_negative_witness :
    Async.takeRun (-1) ([5] : List Nat) = some ([], 0) ∧
    Async.takeRun (-1) ([5] : List Nat) = Async.takeRun 0 [5] :=
  c10_take_negative (-1) [5] (by decide)

end SingleEvent
